import Mathlib

/- Verification development for the MUS-to-NDP MML converter (src/mus2ndp.py).
   Strings are modelled as `List Char`; Python regular-expression operations are
   modelled by explicit recursive scanners that implement the leftmost-match,
   maximal-run semantics of the concrete patterns used by the source
   (each pattern consists of literal characters and greedy character-class runs,
   for which leftmost backtracking search reduces to maximal-run matching).
   Loops whose termination is not structural are given explicit fuel; a fuel of
   `length + 1` is provably sufficient wherever the source terminates, and the
   `none` result of a fueled loop marks the inputs on which the source would not
   terminate. -/

/- ---------------------------------------------------------------------------
   Basic string utilities (Python str.strip, str.lstrip, str.splitlines,
   "\n".join, ' '.join, int(digits)).
   `isSpace` is the Python whitespace class used both by str.strip and by
   the regex class \s (ASCII range, which covers all inputs handled here). -/

def isSpace (c : Char) : Bool :=
  c = ' ' || c = '\t' || c = '\n' || c = '\r' || c = '\x0B' || c = '\x0C'

def lstrip (l : List Char) : List Char := l.dropWhile isSpace

def strip (l : List Char) : List Char :=
  ((l.dropWhile isSpace).reverse.dropWhile isSpace).reverse

def natOfDigits (ds : List Char) : Nat :=
  ds.foldl (fun n c => 10 * n + (c.toNat - '0'.toNat)) 0

def splitOnNl : List Char → List (List Char)
  | [] => [[]]
  | '\n' :: rest => [] :: splitOnNl rest
  | c :: rest =>
    match splitOnNl rest with
    | h :: t => (c :: h) :: t
    | [] => [[c]]

def splitlines (l : List Char) : List (List Char) :=
  if l = [] then []
  else if l.getLast? = some '\n' then (splitOnNl l).dropLast
  else splitOnNl l

def joinNl : List (List Char) → List Char
  | [] => []
  | [x] => x
  | x :: xs => x ++ '\n' :: joinNl xs

def joinSpace : List (List Char) → List Char
  | [] => []
  | [x] => x
  | x :: xs => x ++ ' ' :: joinSpace xs

/- ---------------------------------------------------------------------------
   Global regex substitution (Python re.sub with a constant replacement).
   A matcher `m prev suffix` decides whether the pattern matches at the start
   of `suffix`, where `prev` is the character immediately before the current
   position in the original string (needed for the word-boundary \b); it
   returns the last character of the matched span together with the remainder
   after the span.  All patterns used here match at least one character, so a
   fuel equal to the string length is sufficient. -/

def gsubF (m : Option Char → List Char → Option (Char × List Char)) (repl : List Char) :
    Nat → Option Char → List Char → List Char
  | 0, _, l => l
  | _ + 1, _, [] => []
  | fuel + 1, prev, c :: rest =>
    match m prev (c :: rest) with
    | some (lastc, rem) => repl ++ gsubF m repl fuel (some lastc) rem
    | none => c :: gsubF m repl fuel (some c) rest

def gsub (m : Option Char → List Char → Option (Char × List Char)) (repl : List Char)
    (l : List Char) : List Char :=
  gsubF m repl l.length none l

def isWordChar (c : Char) : Bool := c.isAlphanum || c = '_'

/- Matcher for r'D[-+]?\d+' (detune removal). -/
def mD : Option Char → List Char → Option (Char × List Char) := fun _ l =>
  match l with
  | 'D' :: rest =>
    match rest with
    | c :: r2 =>
      if c = '-' || c = '+' then
        let ds := r2.takeWhile Char.isDigit
        if ds = [] then none else some (ds.getLastD '0', r2.dropWhile Char.isDigit)
      else
        let ds := rest.takeWhile Char.isDigit
        if ds = [] then none else some (ds.getLastD '0', rest.dropWhile Char.isDigit)
    | [] => none
  | _ => none

/- Matcher for r'p\d+' (pan removal). -/
def mP : Option Char → List Char → Option (Char × List Char) := fun _ l =>
  match l with
  | 'p' :: rest =>
    let ds := rest.takeWhile Char.isDigit
    if ds = [] then none else some (ds.getLastD '0', rest.dropWhile Char.isDigit)
  | _ => none

/- Matcher for r'\bL\s+' (loop-open rewrite); `prev` carries the word-boundary
   context: the boundary holds at the string start or after a non-word char. -/
def mL : Option Char → List Char → Option (Char × List Char) := fun prev l =>
  match l with
  | 'L' :: rest =>
    if (match prev with | some pc => isWordChar pc | none => false) then none
    else
      let ws := rest.takeWhile isSpace
      if ws = [] then none else some (ws.getLastD ' ', rest.dropWhile isSpace)
  | _ => none

/- Matcher for r'\]'. -/
def mRB : Option Char → List Char → Option (Char × List Char) := fun _ l =>
  match l with
  | ']' :: rest => some (']', rest)
  | _ => none

/- Matcher for r'\['. -/
def mLB : Option Char → List Char → Option (Char × List Char) := fun _ l =>
  match l with
  | '[' :: rest => some ('[', rest)
  | _ => none

/- Matcher for r'\s+' (whitespace collapsing). -/
def mWs : Option Char → List Char → Option (Char × List Char) := fun _ l =>
  match l with
  | c :: rest =>
    if isSpace c then some ((c :: rest.takeWhile isSpace).getLastD ' ', rest.dropWhile isSpace)
    else none
  | [] => none

/- process_mus_commands (src/mus2ndp.py lines 295-318): the six re.sub steps in
   source order.  The channel-id / mode / timebase parameters of the source are
   unused by its body and are omitted. -/
def process_mus_commands (track_data : List Char) : List Char :=
  let d1 := gsub mD [] track_data
  let d2 := gsub mP [] d1
  let d3 := gsub mL "@L ".toList d2
  let d4 := gsub mRB [] d3
  let d5 := gsub mLB [] d4
  gsub mWs [' '] d5

/- ---------------------------------------------------------------------------
   split_track_data (src/mus2ndp.py lines 225-270).  The backward scan of the
   source is `findSplit`; the while loop is `splitLoop`, fueled.  When
   max_length is 0 and the input nonempty the Python loop never terminates;
   the fueled model returns `none` exactly there. -/

def safeChars : List Char := "abcdefgrABCDEFGR<>".toList

def findSplit (s : List Char) : Nat → Nat
  | 0 => 0
  | i + 1 =>
    if i + 1 < s.length ∧ safeChars.contains (s.getD (i + 1) ' ') then i + 1
    else findSplit s i

def splitLoop (channel_id : List Char) (max_length : Nat) :
    Nat → List Char → Option (List (List Char))
  | 0, remaining => if remaining = [] then some [] else none
  | fuel + 1, remaining =>
    if remaining = [] then some []
    else if remaining.length ≤ max_length then some [channel_id ++ ' ' :: remaining]
    else
      let idx0 := findSplit remaining max_length
      let idx := if idx0 = 0 then max_length else idx0
      match splitLoop channel_id max_length fuel (strip (remaining.drop idx)) with
      | some rest => some ((channel_id ++ ' ' :: remaining.take idx) :: rest)
      | none => none

def split_track_data (mml_data channel_id : List Char) (max_length : Nat) :
    Option (List (List Char)) :=
  if strip mml_data = [] then some []
  else splitLoop channel_id max_length ((strip mml_data).length + 1) (strip mml_data)

/- ---------------------------------------------------------------------------
   preprocess_and_extract_data_from_track_line (src/mus2ndp.py lines 172-223).
   The three tempo patterns are tried in order; `scanFirst` implements
   re.search (leftmost position wins) for a position matcher. -/

def scanFirst (try1 : List Char → Option (Nat × List Char)) :
    List Char → Option (List Char × Nat × List Char)
  | [] => none
  | c :: rest =>
    match try1 (c :: rest) with
    | some (v, post) => some ([], v, post)
    | none =>
      match scanFirst try1 rest with
      | some (pre, v, post) => some (c :: pre, v, post)
      | none => none

/- Position matcher for r'@t(\d+)'. -/
def tryT1 : List Char → Option (Nat × List Char)
  | '@' :: 't' :: r =>
    let ds := r.takeWhile Char.isDigit
    if ds = [] then none else some (natOfDigits ds, r.dropWhile Char.isDigit)
  | _ => none

/- Position matcher for r'@t\s+(\d+)'. -/
def tryT2 : List Char → Option (Nat × List Char)
  | '@' :: 't' :: r =>
    let w := r.takeWhile isSpace
    if w = [] then none
    else
      let r2 := r.dropWhile isSpace
      let ds := r2.takeWhile Char.isDigit
      if ds = [] then none else some (natOfDigits ds, r2.dropWhile Char.isDigit)
  | _ => none

/- Position matcher for r'@\s*t\s*(\d+)'. -/
def tryT3 : List Char → Option (Nat × List Char)
  | '@' :: r =>
    match r.dropWhile isSpace with
    | 't' :: r2 =>
      let r3 := r2.dropWhile isSpace
      let ds := r3.takeWhile Char.isDigit
      if ds = [] then none else some (natOfDigits ds, r3.dropWhile Char.isDigit)
    | _ => none
  | _ => none

def dictSet {κ α : Type} [DecidableEq κ] (d : List (κ × α)) (k : κ) (v : α) : List (κ × α) :=
  match d with
  | [] => [(k, v)]
  | (k', v') :: rest => if k' = k then (k, v) :: rest else (k', v') :: dictSet rest k v

def dictGet {κ α : Type} [DecidableEq κ] (d : List (κ × α)) (k : κ) : Option α :=
  match d with
  | [] => none
  | (k', v') :: rest => if k' = k then some v' else dictGet rest k

def preprocess_and_extract_data_from_track_line (line_content : List Char) (track_char : Char)
    (track_instruments_dict : List (Char × List Char)) :
    List Char × List (Char × List Char) × Option Nat :=
  let l0 := lstrip line_content
  let afterTempo :=
    match scanFirst tryT1 l0 with
    | some (pre, v, post) => (lstrip (pre ++ post), some v)
    | none =>
      match scanFirst tryT2 l0 with
      | some (pre, v, post) => (lstrip (pre ++ post), some v)
      | none =>
        match scanFirst tryT3 l0 with
        | some (pre, v, post) => (lstrip (pre ++ post), some v)
        | none => (l0, (none : Option Nat))
  let l1 := afterTempo.1
  match l1 with
  | '@' :: r =>
    let ds := r.takeWhile Char.isDigit
    if ds = [] then (l1, track_instruments_dict, afterTempo.2)
    else (lstrip (r.dropWhile Char.isDigit), dictSet track_instruments_dict track_char ('@' :: ds),
      afterTempo.2)
  | _ => (l1, track_instruments_dict, afterTempo.2)

/- ---------------------------------------------------------------------------
   parse_mus_file (src/mus2ndp.py lines 27-170).
   `hasAtT` is Python's `'@t' in data`; `searchDefNum` is
   re.search(r"@\s*\d+(?!\s*=)", data): at an '@' followed by optional
   whitespace and a maximal digit run of length d, the greedy engine
   backtracks the digit run, so the negative lookahead fails for every
   prefix length only when d = 1 and the run is followed by
   optional whitespace and '='. -/

def hasAtT : List Char → Bool
  | [] => false
  | '@' :: 't' :: _ => true
  | _ :: rest => hasAtT rest

def wsEqAfter (l : List Char) : Bool :=
  match l.dropWhile isSpace with
  | '=' :: _ => true
  | _ => false

def searchDefNum : List Char → Bool
  | [] => false
  | c :: rest =>
    if c = '@' then
      let r1 := rest.dropWhile isSpace
      let ds := r1.takeWhile Char.isDigit
      if ds = [] then searchDefNum rest
      else if 2 ≤ ds.length then true
      else if wsEqAfter (r1.dropWhile Char.isDigit) then searchDefNum rest
      else true
    else searchDefNum rest

structure ParseState where
  title : List Char := []
  composer : List Char := []
  tracks : List (Char × List Char) := []
  track_instruments : List (Char × List Char) := []
  voice_definitions : List (List Char × List Char) := []
  mus_tempo : Option Nat := none
  current_track : Option Char := none
  acc : List (List Char) := []
deriving DecidableEq

def trackChars : List Char := ['A', 'B', 'C', 'D', 'E', 'F', 'G', 'H']

def flushTracks (st : ParseState) : ParseState :=
  match st.current_track with
  | none => st
  | some ct =>
    if st.acc = [] then st
    else
      let data := strip (joinSpace st.acc)
      if data = [] then st else { st with tracks := dictSet st.tracks ct data }

def parseStep (st : ParseState) (line_raw : List Char) : ParseState :=
  let line := strip line_raw
  if line = [] then st
  else if line.headD ' ' = ';' ∨ line.headD ' ' = '*' then st
  else if (line.take 6).map Char.toUpper = "#TITLE".toList then
    { st with title := (strip (line.drop 6)).filter (fun c => c ≠ '"') }
  else if (line.take 9).map Char.toUpper = "#COMPOSER".toList then
    { st with composer := (strip (line.drop 9)).filter (fun c => c ≠ '"') }
  else if line.headD ' ' = '@' ∧ line.contains '=' ∧ line.contains '{' ∧ line.contains '}' then
    let key := strip (line.takeWhile (fun c => c ≠ '='))
    let v := strip ((line.dropWhile (fun c => c ≠ '=')).drop 1)
    if v.headD ' ' = '{' ∧ v.getLastD ' ' = '}' ∧ v ≠ [] then
      { st with voice_definitions := dictSet st.voice_definitions key v }
    else st
  else if trackChars.contains (line.headD ' ') = true then
    let tc := line.headD ' '
    let dataAfter := line.drop 1
    let isDef := hasAtT dataAfter || searchDefNum (lstrip dataAfter)
    if st.current_track = none ∨ st.current_track ≠ some tc ∨ isDef = true then
      let st1 := flushTracks st
      let pr := preprocess_and_extract_data_from_track_line (lstrip dataAfter) tc
        st.track_instruments
      { st1 with
        current_track := some tc
        acc := if pr.1 = [] then [] else [pr.1]
        track_instruments := pr.2.1
        mus_tempo := if pr.2.2.isSome ∧ st.mus_tempo = none then pr.2.2 else st.mus_tempo }
    else
      let pr := preprocess_and_extract_data_from_track_line (lstrip dataAfter) tc
        st.track_instruments
      { st with
        track_instruments := pr.2.1
        acc := st.acc ++ (if pr.1 = [] then [] else [pr.1]) }
  else if st.current_track.isSome then { st with acc := st.acc ++ [line] }
  else st

def parse_mus_file (content : List Char) : ParseState :=
  flushTracks ((splitlines content).foldl parseStep ({} : ParseState))

/- ---------------------------------------------------------------------------
   convert_mml_file (src/mus2ndp.py lines 320-466), modelled from the parsed
   state onward (file I/O excluded).  The BPM formula uses exact rational
   arithmetic in place of Python's binary floating point: the quotient
   240000000 / (40960 * (256 - t)) = 46875 / (8 * (256 - t)) has denominator
   at most 2040, so its distance from every half-integer exceeds 1 / 4080,
   which is far larger than the double-rounding error; Python's round
   therefore agrees with rational nearest-integer rounding (and no exact
   tie ever occurs, 46875 being odd). -/

def bpmOf (t : Nat) : Int :=
  round ((60 * 4000000 : ℚ) / (40 * 1024 * (256 - (t : ℚ))))

def intChars (i : Int) : List Char :=
  if i < 0 then '-' :: Nat.toDigits 10 i.natAbs else Nat.toDigits 10 i.natAbs

def trackMap (c : Char) : Option Char :=
  match c with
  | 'A' => some '1'
  | 'B' => some '2'
  | 'C' => some '3'
  | 'D' => some '4'
  | 'E' => some '5'
  | 'F' => some '6'
  | 'G' => some '7'
  | 'H' => some '8'
  | _ => none

def insertSorted {α : Type} (le : α → α → Bool) (x : α) : List α → List α
  | [] => [x]
  | y :: ys => if le x y then x :: y :: ys else y :: insertSorted le x ys

def sortByB {α : Type} (le : α → α → Bool) (l : List α) : List α :=
  l.foldr (insertSorted le) []

def lexLe : List Char → List Char → Bool
  | [], _ => true
  | _ :: _, [] => false
  | a :: as, b :: bs => if a = b then lexLe as bs else decide (a < b)

def titleLine (pd : ParseState) : List Char :=
  "#TITLE \"".toList ++ pd.title ++ "\"".toList

def composerLine (pd : ParseState) : List Char :=
  "#COMPOSER \"".toList ++ pd.composer ++ "\"".toList

/- Voice-definition comment block (lines 402-409): keys sorted, body cleaned. -/
def voiceSection (pd : ParseState) : List (List Char) :=
  if pd.voice_definitions = [] then []
  else
    "// Voice Definitions (from MUS @ NN=\x7b...\x7d)".toList ::
      ((sortByB (fun a b => lexLe a.1 b.1) pd.voice_definitions).map (fun kv =>
        "// ".toList ++ kv.1 ++ " = ".toList ++
          strip (gsub mWs [' ']
            (kv.2.map (fun c => if c = '\n' ∨ c = '\r' ∨ c = '\t' then ' ' else c)))))
      ++ [[]]

/- Track-instrument comment block (lines 412-419). -/
def instrSection (pd : ParseState) : List (List Char) :=
  if pd.track_instruments = [] then []
  else if pd.track_instruments.any (fun kv => !kv.2.isEmpty) then
    "// Track-specific Instrument Assignments (from MUS Track @NN)".toList ::
      ((sortByB (fun a b => decide (a.1 ≤ b.1)) pd.track_instruments).filterMap (fun kv =>
        if kv.2 = [] then none
        else some ("// Track ".toList ++ [kv.1] ++ ": ".toList ++ kv.2)))
      ++ [[]]
  else []

/- Per-track section (lines 421-459): a header comment, the wrapped MML lines,
   and a blank line, for each track key in sorted order.  split_track_data
   always returns `some` at max_length 80 (proved below), so the `getD []`
   totalization is never exercised. -/
def trackSection (pd : ParseState) : List (List Char) :=
  ((sortByB (fun a b => decide (a ≤ b)) (pd.tracks.map Prod.fst)).map (fun k =>
    match trackMap k.toUpper with
    | none => []
    | some ch =>
      ("// トラック ".toList ++ [k.toUpper] ++ " (チャンネル ".toList ++ [ch] ++ ")".toList) ::
        ((split_track_data (process_mus_commands ((dictGet pd.tracks k).getD [])) [ch] 80).getD []
          ++ [[]]))).flatten

def mmlParts (pd : ParseState) : List (List Char) :=
  [titleLine pd, composerLine pd, "#TIMEBASE 48".toList]
  ++ (match pd.mus_tempo with
    | some t =>
      if 1 ≤ t ∧ t ≤ 255 then
        if pd.tracks = [] then []
        else
          let active := (sortByB (fun a b => decide (a ≤ b)) (pd.tracks.map Prod.fst)).filterMap
            (fun k => trackMap k.toUpper)
          if active = [] then []
          else [sortByB (fun a b => decide (a ≤ b)) active ++ ' ' :: 'T' :: intChars (bpmOf t)]
      else []
    | none => [])
  ++ [[]]
  ++ voiceSection pd ++ instrSection pd ++ trackSection pd

def convert_mml_file (content : List Char) : List Char :=
  strip (joinNl (mmlParts (parse_mus_file content))) ++ ['\n']

/- ---------------------------------------------------------------------------
   Specification-side definitions, used only in theorem statements to compare
   the embedded source against the spec's words. -/

/- Repeated "c1" pairs, the input family of testable property 5 of the spec. -/
def repC (n : Nat) : List Char := (List.replicate n ['c', '1']).flatten

/- The spec's description of a #TITLE header line: keyword stripped
   (case-insensitively), remainder trimmed, quote characters removed. -/
def titleOf (line_raw : List Char) : Option (List Char) :=
  let line := strip line_raw
  if (line.take 6).map Char.toUpper = "#TITLE".toList then
    some ((strip (line.drop 6)).filter (fun c => c ≠ '"'))
  else none

/- The spec's description of a #COMPOSER header line. -/
def composerOf (line_raw : List Char) : Option (List Char) :=
  let line := strip line_raw
  if (line.take 9).map Char.toUpper = "#COMPOSER".toList then
    some ((strip (line.drop 9)).filter (fun c => c ≠ '"'))
  else none

/- Last element with default ("last write wins"). -/
def lastD {α : Type} (l : List α) (d : α) : α := l.foldl (fun _ x => x) d

/- The claimed condition for emitting a tempo command: parsed tempo is an
   integer in [1,255] and at least one track has data. -/
def tempoCondB (pd : ParseState) : Bool :=
  (match pd.mus_tempo with
   | some t => decide (1 ≤ t) && decide (t ≤ 255)
   | none => false) && !pd.tracks.isEmpty

/- The tempo command line the source emits when the condition holds. -/
def tempoLineOf (pd : ParseState) : List Char :=
  sortByB (fun a b => decide (a ≤ b))
    ((sortByB (fun a b => decide (a ≤ b)) (pd.tracks.map Prod.fst)).filterMap
      (fun k => trackMap k.toUpper))
  ++ ' ' :: 'T' :: intChars (bpmOf (pd.mus_tempo.getD 0))

/- Invariant of the parser state: all recorded track keys and the currently
   open track letter lie in A..H. -/
def InvKeys (st : ParseState) : Prop :=
  (∀ k ∈ st.tracks.map Prod.fst, k ∈ trackChars) ∧
  (∀ c, st.current_track = some c → c ∈ trackChars)

/- ---------------------------------------------------------------------------
   Theorems.  Claim theorems are named after their claims; everything else is
   shared helper material. -/

/-- C2: `process_mus_commands` is exactly the six-step reference pipeline in
source order — remove `D[-+]?\d+`, remove `p\d+`, rewrite the loop-open token
(`\bL\s+`) to "@L ", delete every ']', delete every '[', collapse whitespace
runs — and on the spec's concrete examples, "c4 D4 p1 d4" translates to
"c4 d4" and "L [cdeg]" translates to "@L cdeg". -/
theorem C2_process_mus_commands_pipeline :
    (∀ s : List Char, process_mus_commands s =
      gsub mWs [' ']
        (gsub mLB [] (gsub mRB [] (gsub mL "@L ".toList (gsub mP [] (gsub mD [] s))))))
    ∧ process_mus_commands "c4 D4 p1 d4".toList = "c4 d4".toList
    ∧ process_mus_commands "L [cdeg]".toList = "@L cdeg".toList :=
  ⟨fun _ => rfl, by decide, by decide⟩

/-- C5 counterexample: the BPM conversion is not strictly monotone (and a
fortiori not "monotonically decreasing"): MUS tempos 1 and 2 both yield
BPM 23, so a higher MUS tempo value does not always yield a higher BPM. -/
theorem C5_counterexample_bpm_plateau : bpmOf 1 = 23 ∧ bpmOf 2 = 23 := by
  constructor <;> (rw [bpmOf, round_eq]; norm_num)

/-- C5 amended: the BPM conversion is a (deterministic) function of the MUS
tempo that is weakly increasing on [1,255] — a higher MUS tempo never yields
a lower BPM, though adjacent tempos may round to the same BPM — and
mus_tempo = 220 yields bpm = 163. -/
theorem C5_bpm_weakly_monotone :
    (∀ t1 t2 : Nat, 1 ≤ t1 → t1 ≤ t2 → t2 ≤ 255 → bpmOf t1 ≤ bpmOf t2)
    ∧ bpmOf 220 = 163 := by
  constructor
  · intro t1 t2 h1 h12 h255
    rw [bpmOf, bpmOf, round_eq, round_eq]
    apply Int.floor_le_floor
    have ht1 : (1 : ℚ) ≤ (t1 : ℚ) := by exact_mod_cast h1
    have ht2 : (t2 : ℚ) ≤ 255 := by exact_mod_cast h255
    have h12' : (t1 : ℚ) ≤ (t2 : ℚ) := by exact_mod_cast h12
    have d2pos : (0 : ℚ) < 40 * 1024 * (256 - (t2 : ℚ)) := by nlinarith
    have d1pos : (0 : ℚ) < 40 * 1024 * (256 - (t1 : ℚ)) := by nlinarith
    have key : (60 * 4000000 : ℚ) / (40 * 1024 * (256 - (t1 : ℚ)))
        ≤ (60 * 4000000 : ℚ) / (40 * 1024 * (256 - (t2 : ℚ))) := by
      apply div_le_div_of_nonneg_left (by norm_num) d2pos
      nlinarith
    linarith
  · rw [bpmOf, round_eq]; norm_num

/-- C5 witness for the amended monotonicity: 1 ≤ 100 ≤ 200 ≤ 255 and
bpmOf 100 ≤ bpmOf 200. -/
theorem C5_bpm_weakly_monotone_witness :
    1 ≤ 100 ∧ 100 ≤ 200 ∧ 200 ≤ 255 ∧ bpmOf 100 ≤ bpmOf 200 :=
  ⟨by decide, by decide, by decide,
    C5_bpm_weakly_monotone.1 100 200 (by decide) (by decide) (by decide)⟩

/-- C7 counterexample: converting the empty document does not produce the
"Untitled"/"Unknown" headers the claim states; the actual title and composer
header values are empty strings. -/
theorem C7_counterexample_empty_input :
    convert_mml_file [] ≠
      "#TITLE \"Untitled\"\n#COMPOSER \"Unknown\"\n#TIMEBASE 48\n".toList := by
  decide

/-- C1 counterexample: in the document "A cde\nA @ t 100", the only track line
whose preprocessing yields a tempo is the continuation line "A @ t 100"
(it yields 100, via the spaced pattern `@\s*t\s*\d+`), yet the parsed
document tempo is `none`: the tempo extracted on a same-track continuation
line is discarded, so the resulting tempo is not always the tempo of the
first track line whose preprocessing yields one. -/
theorem C1_counterexample_continuation_tempo_dropped :
    (parse_mus_file "A cde\nA @ t 100".toList).mus_tempo = none
    ∧ (preprocess_and_extract_data_from_track_line "@ t 100".toList 'A' []).2.2 = some 100 := by
  exact ⟨by decide, by decide⟩

/-- C3 counterexample: on an input of exactly 80 characters (40 "c1" pairs),
the single emitted line is "1 " followed by the 80-character chunk, which is
82 characters — the full output line exceeds the maximum line length 80. -/
theorem C3_counterexample_line_exceeds_80 :
    split_track_data (repC 40) ['1'] 80 = some [['1', ' '] ++ repC 40]
    ∧ 80 < (['1', ' '] ++ repC 40).length := by
  exact ⟨by decide, by decide⟩

theorem length_dropWhile_le {α : Type} (p : α → Bool) (l : List α) :
    (l.dropWhile p).length ≤ l.length := by
  induction l with
  | nil => simp
  | cons a t ih =>
    rw [List.dropWhile_cons]
    split_ifs
    · exact Nat.le_trans ih (Nat.le_succ _)
    · exact Nat.le_refl _

theorem strip_length_le (l : List Char) : (strip l).length ≤ l.length := by
  unfold strip
  rw [List.length_reverse]
  calc ((l.dropWhile isSpace).reverse.dropWhile isSpace).length
      ≤ (l.dropWhile isSpace).reverse.length := length_dropWhile_le _ _
    _ = (l.dropWhile isSpace).length := List.length_reverse _
    _ ≤ l.length := length_dropWhile_le _ _

theorem findSplit_le (s : List Char) : ∀ i, findSplit s i ≤ i := by
  intro i
  induction i with
  | zero => simp [findSplit]
  | succ n ih =>
    rw [findSplit]
    split_ifs
    · exact Nat.le_refl _
    · exact Nat.le_trans ih (Nat.le_succ _)

theorem splitLoop_shape (ch : List Char) (ml : Nat) (hml : 1 ≤ ml) :
    ∀ fuel remaining lines, splitLoop ch ml fuel remaining = some lines →
      ∀ L ∈ lines, ∃ chunk, chunk ≠ [] ∧ chunk.length ≤ ml ∧ L = ch ++ ' ' :: chunk := by
  intro fuel
  induction fuel with
  | zero =>
    intro remaining lines h L hL
    simp only [splitLoop] at h
    split_ifs at h
    injection h with h; subst h; simp at hL
  | succ f ih =>
    intro remaining lines h L hL
    simp only [splitLoop] at h
    by_cases h1 : remaining = []
    · rw [if_pos h1] at h
      injection h with h; subst h; simp at hL
    · rw [if_neg h1] at h
      by_cases h2 : remaining.length ≤ ml
      · rw [if_pos h2] at h
        injection h with h; subst h
        simp only [List.mem_singleton] at hL
        subst hL
        exact ⟨remaining, h1, h2, rfl⟩
      · rw [if_neg h2] at h
        generalize hidx : (if findSplit remaining ml = 0 then ml else findSplit remaining ml) = idx
          at h
        have hidx1 : 1 ≤ idx := by
          rw [← hidx]; split_ifs with h0
          · exact hml
          · omega
        have hidxml : idx ≤ ml := by
          rw [← hidx]; split_ifs with h0
          · exact Nat.le_refl _
          · exact findSplit_le remaining ml
        cases hrec : splitLoop ch ml f (strip (remaining.drop idx)) with
        | none => rw [hrec] at h; simp at h
        | some rest =>
          rw [hrec] at h
          injection h with h; subst h
          rcases List.mem_cons.mp hL with hL | hL
          · subst hL
            refine ⟨remaining.take idx, ?_, ?_, rfl⟩
            · have hl1 : 1 ≤ remaining.length := by
                cases remaining with
                | nil => exact absurd rfl h1
                | cons a t => simp
              have hpos : 0 < (remaining.take idx).length := by
                rw [List.length_take]
                omega
              exact List.length_pos.mp hpos
            · rw [List.length_take]
              exact Nat.le_trans (Nat.min_le_left _ _) hidxml
          · exact ih _ _ hrec L hL

theorem splitLoop_total (ch : List Char) (ml : Nat) (hml : 1 ≤ ml) :
    ∀ fuel remaining, remaining.length < fuel →
      ∃ lines, splitLoop ch ml fuel remaining = some lines := by
  intro fuel
  induction fuel with
  | zero => intro r h; exact absurd h (Nat.not_lt_zero _)
  | succ f ih =>
    intro remaining hlen
    simp only [splitLoop]
    by_cases h1 : remaining = []
    · rw [if_pos h1]; exact ⟨[], rfl⟩
    · rw [if_neg h1]
      by_cases h2 : remaining.length ≤ ml
      · rw [if_pos h2]; exact ⟨_, rfl⟩
      · rw [if_neg h2]
        generalize hidx : (if findSplit remaining ml = 0 then ml else findSplit remaining ml) = idx
        have hidx1 : 1 ≤ idx := by
          rw [← hidx]; split_ifs with h0
          · exact hml
          · omega
        obtain ⟨rest, hrest⟩ := ih (strip (remaining.drop idx)) (by
          have hs := strip_length_le (remaining.drop idx)
          rw [List.length_drop] at hs
          have hr : 1 ≤ remaining.length := by
            cases remaining with
            | nil => exact absurd rfl h1
            | cons a t => simp
          omega)
        rw [hrest]
        exact ⟨_, rfl⟩

/-- C10: the line wrapper terminates on every input at max_length 80: it
returns a finite list of lines, and every line carries a non-empty chunk
(each loop iteration removes at least one character). -/
theorem C10_split_track_data_terminates :
    ∀ s ch : List Char, ∃ lines, split_track_data s ch 80 = some lines ∧
      ∀ L ∈ lines, ∃ chunk, chunk ≠ [] ∧ L = ch ++ ' ' :: chunk := by
  intro s ch
  unfold split_track_data
  by_cases h : strip s = []
  · rw [if_pos h]; exact ⟨[], rfl, by simp⟩
  · rw [if_neg h]
    obtain ⟨lines, hl⟩ := splitLoop_total ch 80 (by omega) ((strip s).length + 1) (strip s)
      (by omega)
    refine ⟨lines, hl, ?_⟩
    intro L hL
    obtain ⟨chunk, hne, _, heq⟩ := splitLoop_shape ch 80 (by omega) _ _ _ hl L hL
    exact ⟨chunk, hne, heq⟩

/-- C10 witness: a concrete run of the wrapper, with non-empty chunks. -/
theorem C10_split_track_data_terminates_witness :
    ∃ lines, split_track_data "c1c1".toList ['1'] 80 = some lines ∧
      ∀ L ∈ lines, ∃ chunk, chunk ≠ [] ∧ L = ['1'] ++ ' ' :: chunk :=
  C10_split_track_data_terminates "c1c1".toList ['1']

/-- C3 amended: every emitted line is the channel id, one space, and a chunk
of at most 80 characters; the full line therefore has length at most
(length of channel id) + 1 + 80, which for a one-character channel id is 82,
not 80 as the claim states. -/
theorem C3_amended_chunk_at_most_80 :
    ∀ (s ch : List Char) lines, split_track_data s ch 80 = some lines →
      ∀ L ∈ lines, ∃ chunk, L = ch ++ ' ' :: chunk ∧ chunk.length ≤ 80 ∧
        L.length ≤ ch.length + 81 := by
  intro s ch lines h L hL
  unfold split_track_data at h
  split_ifs at h with hs
  · injection h with h; subst h; simp at hL
  · obtain ⟨chunk, _, hlen, heq⟩ := splitLoop_shape ch 80 (by omega) _ _ _ h L hL
    refine ⟨chunk, heq, hlen, ?_⟩
    subst heq
    simp [List.length_append]
    omega

/-- C3 amended witness: a concrete application on the one-note input "c". -/
theorem C3_amended_chunk_at_most_80_witness :
    ∃ chunk, ['1', ' ', 'c'] = ['1'] ++ ' ' :: chunk ∧ chunk.length ≤ 80 ∧
      (['1', ' ', 'c'] : List Char).length ≤ (['1'] : List Char).length + 81 :=
  C3_amended_chunk_at_most_80 "c".toList ['1'] [['1', ' ', 'c']] (by decide) _ (by decide)

theorem repC_succ (n : Nat) : repC (n + 1) = 'c' :: '1' :: repC n := by
  simp [repC, List.replicate_succ]

theorem repC_length (n : Nat) : (repC n).length = 2 * n := by
  induction n with
  | zero => simp [repC]
  | succ k ih =>
    rw [repC_succ]
    simp only [List.length_cons, ih]
    omega

theorem repC_add (m n : Nat) : repC (m + n) = repC m ++ repC n := by
  unfold repC
  rw [List.replicate_add, List.flatten_append]

theorem repC_nospace (n : Nat) : ∀ c ∈ repC n, isSpace c = false := by
  intro c hc
  rw [repC, List.mem_flatten] at hc
  obtain ⟨l, hl, hcl⟩ := hc
  rw [List.mem_replicate] at hl
  rw [hl.2] at hcl
  rcases List.mem_cons.mp hcl with h | h
  · rw [h]; decide
  · rcases List.mem_cons.mp h with h | h
    · rw [h]; decide
    · simp at h

theorem dropWhile_nospace (l : List Char) (h : ∀ c ∈ l, isSpace c = false) :
    l.dropWhile isSpace = l := by
  cases l with
  | nil => rfl
  | cons a t =>
    rw [List.dropWhile_cons, h a (List.mem_cons_self a t)]
    simp

theorem strip_nospace (l : List Char) (h : ∀ c ∈ l, isSpace c = false) : strip l = l := by
  unfold strip
  rw [dropWhile_nospace l h, dropWhile_nospace l.reverse (by
    intro c hc
    exact h c (List.mem_reverse.mp hc)), List.reverse_reverse]

theorem repC_getD80 (n : Nat) (h : 41 ≤ n) : (repC n).getD 80 ' ' = 'c' := by
  have hdec : repC n = repC 40 ++ repC (n - 40) := by
    rw [← repC_add]; congr 1; omega
  rw [hdec, List.getD_append_right _ _ _ _ (by rw [repC_length])]
  have h80 : (repC 40).length = 80 := by rw [repC_length]
  rw [h80]
  obtain ⟨k, hk⟩ : ∃ k, n - 40 = k + 1 := ⟨n - 41, by omega⟩
  rw [hk, repC_succ]
  rfl

theorem findSplit_repC80 (n : Nat) (h : 41 ≤ n) : findSplit (repC n) 80 = 80 := by
  show findSplit (repC n) (79 + 1) = 80
  rw [findSplit]
  rw [if_pos ⟨by rw [repC_length]; omega, by rw [repC_getD80 n h]; decide⟩]

theorem splitLoop_repC (fuel : Nat) :
    ∀ n, 1 ≤ n → 2 * n < fuel →
      ∃ lines, splitLoop ['1'] 80 fuel (repC n) = some lines ∧
        (lines.map (fun L => L.drop 2)).flatten = repC n ∧
        ∀ L ∈ lines, (L.drop 2).headD ' ' = 'c' := by
  induction fuel with
  | zero => intro n h1 h2; omega
  | succ f ih =>
    intro n h1 h2
    have hne : repC n ≠ [] := by
      have hl := repC_length n
      intro hc; rw [hc] at hl; simp at hl; omega
    rcases le_or_lt n 40 with hle | hgt
    · have hlen : (repC n).length ≤ 80 := by rw [repC_length]; omega
      refine ⟨[['1'] ++ ' ' :: repC n], ?_, ?_, ?_⟩
      · simp only [splitLoop]
        rw [if_neg hne, if_pos hlen]
      · simp
      · intro L hL
        simp only [List.mem_singleton] at hL
        subst hL
        obtain ⟨k, hk⟩ : ∃ k, n = k + 1 := ⟨n - 1, by omega⟩
        subst hk
        simp [repC_succ]
    · have hlen : ¬ (repC n).length ≤ 80 := by rw [repC_length]; omega
      have hfs : findSplit (repC n) 80 = 80 := findSplit_repC80 n (by omega)
      have hdecomp : repC n = repC 40 ++ repC (n - 40) := by
        rw [← repC_add]; congr 1; omega
      have htake : (repC n).take 80 = repC 40 := by
        rw [hdecomp]; exact List.take_left' (by rw [repC_length])
      have hdrop : (repC n).drop 80 = repC (n - 40) := by
        rw [hdecomp]; exact List.drop_left' (by rw [repC_length])
      have hstrip : strip (repC (n - 40)) = repC (n - 40) := strip_nospace _ (repC_nospace _)
      obtain ⟨rest, hrest, hjoin, hheads⟩ := ih (n - 40) (by omega) (by omega)
      refine ⟨('1' :: ' ' :: repC 40) :: rest, ?_, ?_, ?_⟩
      · simp only [splitLoop]
        rw [if_neg hne, if_neg hlen, hfs]
        rw [if_neg (by norm_num : ¬ (80 : Nat) = 0)]
        rw [hdrop, hstrip, hrest, htake]
        rfl
      · simp only [List.map_cons, List.flatten_cons]
        have hd2 : ('1' :: ' ' :: repC 40).drop 2 = repC 40 := rfl
        rw [hd2, hjoin, ← hdecomp]
      · intro L hL
        rcases List.mem_cons.mp hL with hL | hL
        · subst hL; rfl
        · exact hheads L hL

/-- C4: on any input of repeated "c1" pairs longer than 80 characters, the
line wrapper cuts only immediately before a safe token character (every
chunk after the first begins with one), concatenating all emitted chunks
(channel prefixes dropped) reproduces the original input, and any input
that is empty after trimming yields an empty sequence of lines. -/
theorem C4_wrap_c1_safe_cuts_and_rejoin :
    (∀ n, 80 < 2 * n →
      ∃ lines, split_track_data (repC n) ['1'] 80 = some lines ∧
        (lines.map (fun L => L.drop 2)).flatten = repC n ∧
        ∀ L ∈ lines.tail, safeChars.contains ((L.drop 2).headD ' ') = true)
    ∧ (∀ s ch : List Char, strip s = [] → split_track_data s ch 80 = some []) := by
  constructor
  · intro n hn
    have hstrip : strip (repC n) = repC n := strip_nospace _ (repC_nospace _)
    have hne : repC n ≠ [] := by
      have hl := repC_length n
      intro hc; rw [hc] at hl; simp at hl; omega
    obtain ⟨lines, hl, hjoin, hheads⟩ := splitLoop_repC ((repC n).length + 1) n (by omega)
      (by rw [repC_length]; omega)
    refine ⟨lines, ?_, hjoin, ?_⟩
    · unfold split_track_data
      rw [if_neg (by rw [hstrip]; exact hne), hstrip]
      exact hl
    · intro L hL
      rw [hheads L (List.mem_of_mem_tail hL)]
      decide
  · intro s ch h
    unfold split_track_data
    rw [if_pos h]

/-- C4 witness: concrete instantiations at 41 "c1" pairs and at the blank
input consisting of one space. -/
theorem C4_wrap_c1_safe_cuts_and_rejoin_witness :
    (80 < 2 * 41 ∧
      ∃ lines, split_track_data (repC 41) ['1'] 80 = some lines ∧
        (lines.map (fun L => L.drop 2)).flatten = repC 41 ∧
        ∀ L ∈ lines.tail, safeChars.contains ((L.drop 2).headD ' ') = true)
    ∧ (strip [' '] = [] ∧ split_track_data [' '] ['1'] 80 = some []) :=
  ⟨⟨by decide, C4_wrap_c1_safe_cuts_and_rejoin.1 41 (by decide)⟩,
    ⟨by decide, C4_wrap_c1_safe_cuts_and_rejoin.2 [' '] ['1'] (by decide)⟩⟩

theorem flushTracks_title (st : ParseState) : (flushTracks st).title = st.title := by
  unfold flushTracks
  cases hct : st.current_track
  · rfl
  · dsimp only
    split_ifs <;> rfl

theorem flushTracks_composer (st : ParseState) : (flushTracks st).composer = st.composer := by
  unfold flushTracks
  cases hct : st.current_track
  · rfl
  · dsimp only
    split_ifs <;> rfl

theorem not_title_prefix_of_head (a : Char) (t : List Char) (h : Char.toUpper a ≠ '#') :
    ¬ ((a :: t).take 6).map Char.toUpper = "#TITLE".toList := by
  intro hEq
  rw [show "#TITLE".toList = ['#', 'T', 'I', 'T', 'L', 'E'] from rfl] at hEq
  rw [show (6 : Nat) = 5 + 1 from rfl, List.take_succ_cons, List.map_cons] at hEq
  injection hEq with h1 _
  exact h h1

theorem not_composer_prefix_of_head (a : Char) (t : List Char) (h : Char.toUpper a ≠ '#') :
    ¬ ((a :: t).take 9).map Char.toUpper = "#COMPOSER".toList := by
  intro hEq
  rw [show "#COMPOSER".toList = ['#', 'C', 'O', 'M', 'P', 'O', 'S', 'E', 'R'] from rfl] at hEq
  rw [show (9 : Nat) = 8 + 1 from rfl, List.take_succ_cons, List.map_cons] at hEq
  injection hEq with h1 _
  exact h h1

theorem title_composer_exclusive (l : List Char)
    (hT : ((strip l).take 6).map Char.toUpper = "#TITLE".toList) :
    ¬ ((strip l).take 9).map Char.toUpper = "#COMPOSER".toList := by
  intro hC
  have h6 : ((strip l).take 6).map Char.toUpper = (((strip l).take 9).map Char.toUpper).take 6 := by
    rw [← List.map_take, List.take_take]
    norm_num
  rw [hC, hT] at h6
  exact absurd h6 (by decide)

theorem parseStep_title (st : ParseState) (l : List Char) :
    (parseStep st l).title = (titleOf l).getD st.title := by
  simp only [parseStep, titleOf]
  by_cases hb : strip l = []
  · rw [if_pos hb, hb,
      if_neg (by decide : ¬ ((([] : List Char).take 6).map Char.toUpper = "#TITLE".toList))]
    rfl
  · rw [if_neg hb]
    obtain ⟨a, t, ha⟩ : ∃ a t, strip l = a :: t := by
      cases hsl : strip l with
      | nil => exact absurd hsl hb
      | cons a t => exact ⟨a, t, rfl⟩
    by_cases hc : (strip l).headD ' ' = ';' ∨ (strip l).headD ' ' = '*'
    · rw [if_pos hc]
      have hT : ¬ ((strip l).take 6).map Char.toUpper = "#TITLE".toList := by
        rw [ha]
        rw [ha] at hc
        simp only [List.headD_cons] at hc
        rcases hc with hc | hc <;> subst hc <;>
          exact not_title_prefix_of_head _ _ (by decide)
      rw [if_neg hT]
      rfl
    · rw [if_neg hc]
      by_cases hT : ((strip l).take 6).map Char.toUpper = "#TITLE".toList
      · rw [if_pos hT, if_pos hT]
        rfl
      · rw [if_neg hT, if_neg hT]
        by_cases hC : ((strip l).take 9).map Char.toUpper = "#COMPOSER".toList
        · rw [if_pos hC]; rfl
        · rw [if_neg hC]
          by_cases hV : (strip l).headD ' ' = '@' ∧ (strip l).contains '=' ∧
              (strip l).contains '{' ∧ (strip l).contains '}'
          · rw [if_pos hV]
            split_ifs <;> rfl
          · rw [if_neg hV]
            by_cases hTr : trackChars.contains ((strip l).headD ' ') = true
            · rw [if_pos hTr]
              split_ifs <;> first | rfl | exact flushTracks_title st
            · rw [if_neg hTr]
              split_ifs <;> rfl

theorem parseStep_composer (st : ParseState) (l : List Char) :
    (parseStep st l).composer = (composerOf l).getD st.composer := by
  simp only [parseStep, composerOf]
  by_cases hb : strip l = []
  · rw [if_pos hb, hb,
      if_neg (by decide : ¬ ((([] : List Char).take 9).map Char.toUpper = "#COMPOSER".toList))]
    rfl
  · rw [if_neg hb]
    obtain ⟨a, t, ha⟩ : ∃ a t, strip l = a :: t := by
      cases hsl : strip l with
      | nil => exact absurd hsl hb
      | cons a t => exact ⟨a, t, rfl⟩
    by_cases hc : (strip l).headD ' ' = ';' ∨ (strip l).headD ' ' = '*'
    · rw [if_pos hc]
      have hC : ¬ ((strip l).take 9).map Char.toUpper = "#COMPOSER".toList := by
        rw [ha]
        rw [ha] at hc
        simp only [List.headD_cons] at hc
        rcases hc with hc | hc <;> subst hc <;>
          exact not_composer_prefix_of_head _ _ (by decide)
      rw [if_neg hC]
      rfl
    · rw [if_neg hc]
      by_cases hT : ((strip l).take 6).map Char.toUpper = "#TITLE".toList
      · rw [if_pos hT, if_neg (title_composer_exclusive l hT)]
        rfl
      · rw [if_neg hT]
        by_cases hC : ((strip l).take 9).map Char.toUpper = "#COMPOSER".toList
        · rw [if_pos hC, if_pos hC]
          rfl
        · rw [if_neg hC, if_neg hC]
          by_cases hV : (strip l).headD ' ' = '@' ∧ (strip l).contains '=' ∧
              (strip l).contains '{' ∧ (strip l).contains '}'
          · rw [if_pos hV]
            split_ifs <;> rfl
          · rw [if_neg hV]
            by_cases hTr : trackChars.contains ((strip l).headD ' ') = true
            · rw [if_pos hTr]
              split_ifs <;> first | rfl | exact flushTracks_composer st
            · rw [if_neg hTr]
              split_ifs <;> rfl

theorem lastD_cons {α : Type} (x : α) (l : List α) (d : α) : lastD (x :: l) d = lastD l x := rfl

theorem foldl_title (lines : List (List Char)) : ∀ st : ParseState,
    (lines.foldl parseStep st).title = lastD (lines.filterMap titleOf) st.title := by
  induction lines with
  | nil => intro st; rfl
  | cons l ls ih =>
    intro st
    rw [List.foldl_cons, ih (parseStep st l), parseStep_title st l, List.filterMap_cons]
    cases h : titleOf l <;> simp [h, lastD_cons]

theorem foldl_composer (lines : List (List Char)) : ∀ st : ParseState,
    (lines.foldl parseStep st).composer = lastD (lines.filterMap composerOf) st.composer := by
  induction lines with
  | nil => intro st; rfl
  | cons l ls ih =>
    intro st
    rw [List.foldl_cons, ih (parseStep st l), parseStep_composer st l, List.filterMap_cons]
    cases h : composerOf l <;> simp [h, lastD_cons]

/-- C9: title and composer headers follow last-write-wins semantics: the
parsed title (composer) equals the value extracted — keyword stripped,
remainder trimmed, quote characters removed — from the last line of the
document that classifies as a #TITLE (#COMPOSER) header, or the empty string
when there is none (in contrast with tempo, which is first-wins). -/
theorem C9_title_composer_last_write_wins :
    ∀ content : List Char,
      (parse_mus_file content).title = lastD ((splitlines content).filterMap titleOf) []
      ∧ (parse_mus_file content).composer =
        lastD ((splitlines content).filterMap composerOf) [] := by
  intro content
  unfold parse_mus_file
  constructor
  · rw [flushTracks_title, foldl_title]
  · rw [flushTracks_composer, foldl_composer]

/-- C8: a non-blank line matching none of the earlier classification rules
(comment, #TITLE/#COMPOSER header, voice-definition shape, track line
starting with a letter A-H) is appended verbatim (in stripped form) to the
open track's accumulator when a track is open, and is discarded silently —
the state is unchanged — when no track is open. -/
theorem C8_continuation_append_or_discard :
    ∀ (st : ParseState) (l : List Char),
      strip l ≠ [] →
      ¬ ((strip l).headD ' ' = ';' ∨ (strip l).headD ' ' = '*') →
      ¬ ((strip l).take 6).map Char.toUpper = "#TITLE".toList →
      ¬ ((strip l).take 9).map Char.toUpper = "#COMPOSER".toList →
      ¬ ((strip l).headD ' ' = '@' ∧ (strip l).contains '=' ∧ (strip l).contains '{' ∧
          (strip l).contains '}') →
      ¬ trackChars.contains ((strip l).headD ' ') = true →
      (st.current_track.isSome → parseStep st l = { st with acc := st.acc ++ [strip l] })
      ∧ (st.current_track = none → parseStep st l = st) := by
  intro st l h1 h2 h3 h4 h5 h6
  simp only [parseStep]
  rw [if_neg h1, if_neg h2, if_neg h3, if_neg h4, if_neg h5, if_neg h6]
  constructor
  · intro hs
    rw [if_pos hs]
  · intro hn
    rw [if_neg (by simp [hn])]

/-- C8 witness: the line " q5 q5" is appended (stripped) to an open track 'A',
and leaves the initial state unchanged when no track is open. -/
theorem C8_continuation_append_or_discard_witness :
    (parseStep { current_track := some 'A', acc := ["c4".toList] } " q5 q5".toList
      = { current_track := some 'A', acc := ["c4".toList, "q5 q5".toList] })
    ∧ parseStep ({} : ParseState) " q5 q5".toList = {} := by
  constructor
  · rw [(C8_continuation_append_or_discard { current_track := some 'A', acc := ["c4".toList] }
      " q5 q5".toList (by decide) (by decide) (by decide) (by decide) (by decide) (by decide)).1
      (by decide)]
    decide
  · exact (C8_continuation_append_or_discard ({} : ParseState) " q5 q5".toList (by decide)
      (by decide) (by decide) (by decide) (by decide) (by decide)).2 rfl

theorem trackChar_props (tc : Char) (h : tc ∈ trackChars) :
    tc ≠ ';' ∧ tc ≠ '*' ∧ Char.toUpper tc ≠ '#' ∧ tc ≠ '@' := by
  fin_cases h <;> exact ⟨by decide, by decide, by decide, by decide⟩

/-- C1 amended: once the document tempo is set, no later line overwrites it
(first occurrence wins); but the tempo is recorded only from new-segment
track lines — on a continuation track line (same letter as the open track,
no definition directive detected by the `@t`-substring or `@\s*\d+(?!\s*=)`
checks), an extracted tempo is discarded, so the document tempo is not in
general the tempo of the first track line whose preprocessing yields one. -/
theorem C1_amended_tempo_first_wins_new_segments_only :
    (∀ (st : ParseState) (l : List Char), st.mus_tempo.isSome →
      (parseStep st l).mus_tempo = st.mus_tempo)
    ∧ (∀ (st : ParseState) (l : List Char) (tc : Char) (rest : List Char),
        strip l = tc :: rest → tc ∈ trackChars → st.current_track = some tc →
        hasAtT rest = false → searchDefNum (lstrip rest) = false →
        (parseStep st l).mus_tempo = st.mus_tempo) := by
  constructor
  · intro st l h
    simp only [parseStep]
    split_ifs <;> simp_all
  · intro st l tc rest hsl htc hcur hat hdef
    obtain ⟨hp1, hp2, hp3, hp4⟩ := trackChar_props tc htc
    simp only [parseStep]
    rw [hsl]
    rw [if_neg (by simp : ¬ (tc :: rest = ([] : List Char)))]
    rw [if_neg (by simp [hp1, hp2])]
    rw [if_neg (not_title_prefix_of_head tc rest hp3)]
    rw [if_neg (not_composer_prefix_of_head tc rest hp3)]
    rw [if_neg (by simp [hp4])]
    rw [if_pos (by simp [List.contains, List.elem_iff, htc])]
    rw [if_neg (by simp [hcur, hat, hdef])]

/-- C1 amended witness: a set tempo survives a later `@t` line, and a spaced
tempo on a continuation line of the open track leaves the tempo unset. -/
theorem C1_amended_tempo_witness :
    (parseStep { mus_tempo := some 5 } "A @t9".toList).mus_tempo = some 5
    ∧ (parseStep { current_track := some 'A' } "A @ t 100".toList).mus_tempo = none := by
  constructor
  · rw [C1_amended_tempo_first_wins_new_segments_only.1 { mus_tempo := some 5 } "A @t9".toList
      (by decide)]
  · rw [C1_amended_tempo_first_wins_new_segments_only.2 { current_track := some 'A' }
      "A @ t 100".toList 'A' " @ t 100".toList (by decide) (by decide) rfl (by decide)
      (by decide)]

theorem flushTracks_current (st : ParseState) :
    (flushTracks st).current_track = st.current_track := by
  unfold flushTracks
  cases hct : st.current_track
  · exact hct
  · dsimp only
    split_ifs <;> first | exact hct | rfl

theorem dictSet_keys {κ α : Type} [DecidableEq κ] (d : List (κ × α)) (k : κ) (v : α) :
    ∀ k', k' ∈ (dictSet d k v).map Prod.fst → k' ∈ d.map Prod.fst ∨ k' = k := by
  induction d with
  | nil =>
    intro k' h
    simp [dictSet] at h
    right; exact h
  | cons p rest ih =>
    obtain ⟨a, b⟩ := p
    intro k' h
    simp only [dictSet] at h
    split_ifs at h with hak
    · rcases List.mem_cons.mp h with h | h
      · right; simpa using h
      · left; simp only [List.map_cons]; exact List.mem_cons_of_mem _ h
    · rcases List.mem_cons.mp h with h | h
      · left; simp only [List.map_cons]; rw [h]; exact List.mem_cons_self _ _
      · rcases ih k' h with h' | h'
        · left; simp only [List.map_cons]; exact List.mem_cons_of_mem _ h'
        · right; exact h'

theorem flushTracks_keys (st : ParseState) (h : InvKeys st) :
    ∀ k ∈ (flushTracks st).tracks.map Prod.fst, k ∈ trackChars := by
  unfold flushTracks
  cases hct : st.current_track with
  | none => exact h.1
  | some ct =>
    dsimp only
    split_ifs
    · exact h.1
    · exact h.1
    · intro k hk
      rcases dictSet_keys st.tracks ct _ k hk with hk' | hk'
      · exact h.1 k hk'
      · rw [hk']; exact h.2 ct hct

theorem parseStep_inv (st : ParseState) (l : List Char) (h : InvKeys st) :
    InvKeys (parseStep st l) := by
  simp only [parseStep]
  by_cases h1 : strip l = []
  · rw [if_pos h1]; exact h
  · rw [if_neg h1]
    by_cases h2 : (strip l).headD ' ' = ';' ∨ (strip l).headD ' ' = '*'
    · rw [if_pos h2]; exact h
    · rw [if_neg h2]
      by_cases h3 : ((strip l).take 6).map Char.toUpper = "#TITLE".toList
      · rw [if_pos h3]; exact h
      · rw [if_neg h3]
        by_cases h4 : ((strip l).take 9).map Char.toUpper = "#COMPOSER".toList
        · rw [if_pos h4]; exact h
        · rw [if_neg h4]
          by_cases h5 : (strip l).headD ' ' = '@' ∧ (strip l).contains '=' ∧
              (strip l).contains '{' ∧ (strip l).contains '}'
          · rw [if_pos h5]
            split_ifs <;> exact h
          · rw [if_neg h5]
            by_cases h6 : trackChars.contains ((strip l).headD ' ') = true
            · rw [if_pos h6]
              have htc : (strip l).headD ' ' ∈ trackChars := by
                simpa [List.contains, List.elem_iff] using h6
              split_ifs <;>
                first
                | exact h
                | (refine ⟨flushTracks_keys st h, ?_⟩
                   intro c hc
                   injection hc with hc
                   rw [← hc]
                   exact htc)
            · rw [if_neg h6]
              split_ifs <;> exact h

theorem foldl_inv (lines : List (List Char)) : ∀ st, InvKeys st →
    InvKeys (lines.foldl parseStep st) := by
  induction lines with
  | nil => intro st h; exact h
  | cons l ls ih =>
    intro st h
    rw [List.foldl_cons]
    exact ih _ (parseStep_inv st l h)

theorem parse_inv (content : List Char) : InvKeys (parse_mus_file content) := by
  unfold parse_mus_file
  have h0 : InvKeys ({} : ParseState) := ⟨fun k hk => by simp at hk, fun c hc => by simp at hc⟩
  have h1 := foldl_inv (splitlines content) {} h0
  refine ⟨flushTracks_keys _ h1, ?_⟩
  intro c hc
  rw [flushTracks_current] at hc
  exact h1.2 c hc

theorem mem_insertSorted {α : Type} (le : α → α → Bool) (x y : α) (l : List α) :
    y ∈ insertSorted le x l ↔ y = x ∨ y ∈ l := by
  induction l with
  | nil => simp [insertSorted]
  | cons a t ih =>
    simp only [insertSorted]
    split_ifs
    · simp [List.mem_cons]
    · simp only [List.mem_cons, ih]
      tauto

theorem mem_sortByB {α : Type} (le : α → α → Bool) (y : α) (l : List α) :
    y ∈ sortByB le l ↔ y ∈ l := by
  induction l with
  | nil => exact Iff.rfl
  | cons a t ih =>
    simp only [sortByB, List.foldr_cons] at ih ⊢
    rw [mem_insertSorted]
    simp only [List.mem_cons, ih]

theorem mmlParts_decomp (pd : ParseState)
    (hkeys : ∀ k ∈ pd.tracks.map Prod.fst, k ∈ trackChars) :
    mmlParts pd = [titleLine pd, composerLine pd, "#TIMEBASE 48".toList]
      ++ (if tempoCondB pd = true then [tempoLineOf pd] else [])
      ++ [[]] ++ voiceSection pd ++ instrSection pd ++ trackSection pd := by
  have hline : ∀ t : Nat, pd.mus_tempo = some t → tempoLineOf pd =
      sortByB (fun a b => decide (a ≤ b))
        ((sortByB (fun a b => decide (a ≤ b)) (pd.tracks.map Prod.fst)).filterMap
          (fun k => trackMap k.toUpper)) ++ ' ' :: 'T' :: intChars (bpmOf t) := by
    intro t hmt
    simp [tempoLineOf, hmt]
  unfold mmlParts
  cases hmt : pd.mus_tempo with
  | none =>
    have hc : tempoCondB pd = false := by simp [tempoCondB, hmt]
    simp [hc]
  | some t =>
    by_cases hr : 1 ≤ t ∧ t ≤ 255
    · by_cases htr : pd.tracks = []
      · have hc : tempoCondB pd = false := by simp [tempoCondB, hmt, htr]
        simp [hc, hr, htr]
      · have hactive : ((sortByB (fun a b => decide (a ≤ b)) (pd.tracks.map Prod.fst)).filterMap
            (fun k => trackMap k.toUpper)) ≠ [] := by
          obtain ⟨p, hp⟩ := List.exists_mem_of_ne_nil pd.tracks htr
          have hk : p.1 ∈ pd.tracks.map Prod.fst := List.mem_map_of_mem Prod.fst hp
          have hks : p.1 ∈ sortByB (fun a b => decide (a ≤ b)) (pd.tracks.map Prod.fst) :=
            (mem_sortByB _ _ _).mpr hk
          have hmem := hkeys p.1 hk
          have htm : ∃ ch, trackMap p.1.toUpper = some ch := by
            simp only [trackChars, List.mem_cons, List.not_mem_nil, or_false] at hmem
            rcases hmem with h | h | h | h | h | h | h | h <;> rw [h] <;> exact ⟨_, rfl⟩
          obtain ⟨ch, hch⟩ := htm
          exact List.ne_nil_of_mem (List.mem_filterMap.mpr ⟨p.1, hks, hch⟩)
        have hc : tempoCondB pd = true := by
          simp [tempoCondB, hmt, htr, hr.1, hr.2]
        simp [hc, hr, htr, hactive, hline t hmt]
    · have hc : tempoCondB pd = false := by
        simp only [tempoCondB, hmt]
        rw [Bool.and_eq_false_iff]
        left
        rw [Bool.and_eq_false_iff]
        by_cases h1t : 1 ≤ t
        · right; simp; omega
        · left; simp; omega
      simp [hc, hr]

/-- C6: the converted document contains the tempo command line exactly when
the parsed tempo is in [1,255] and at least one track has data — the parts
list decomposes as the three headers, then the tempo line present if and
only if `tempoCondB` holds, then the remaining sections, which do not depend
on the tempo; and under the [1,255] guard the BPM formula's denominator
40*1024*(256 - t) is nonzero, so the division-by-zero case is unreachable. -/
theorem C6_tempo_line_iff_valid_tempo_and_tracks :
    ∀ content : List Char,
      (mmlParts (parse_mus_file content) =
        [titleLine (parse_mus_file content), composerLine (parse_mus_file content),
          "#TIMEBASE 48".toList]
        ++ (if tempoCondB (parse_mus_file content) = true
            then [tempoLineOf (parse_mus_file content)] else [])
        ++ [[]] ++ voiceSection (parse_mus_file content)
        ++ instrSection (parse_mus_file content) ++ trackSection (parse_mus_file content))
      ∧ (∀ t : Nat, (parse_mus_file content).mus_tempo = some t → 1 ≤ t → t ≤ 255 →
          (40 * 1024 * (256 - (t : ℚ)) ≠ 0)) := by
  intro content
  constructor
  · exact mmlParts_decomp _ (parse_inv content).1
  · intro t hmt h1 h255
    have ht : (t : ℚ) ≤ 255 := by exact_mod_cast h255
    have hpos : (0 : ℚ) < 40 * 1024 * (256 - (t : ℚ)) := by nlinarith
    exact ne_of_gt hpos

/-- C6 witness: the guard instantiated on a document with tempo 220. -/
theorem C6_tempo_line_iff_valid_tempo_and_tracks_witness :
    (40 * 1024 * (256 - ((220 : Nat) : ℚ)) ≠ 0) :=
  (C6_tempo_line_iff_valid_tempo_and_tracks "A @t220 c".toList).2 220 (by decide)
    (by decide) (by decide)

theorem strip_getLast_not_space (l : List Char) (c : Char)
    (h : (strip l).getLast? = some c) : isSpace c = false := by
  unfold strip at h
  rw [List.getLast?_reverse] at h
  have hd := List.head?_dropWhile_not isSpace ((l.dropWhile isSpace).reverse)
  rw [h] at hd
  exact hd

/-- C7 amended: converting the empty document yields exactly the three header
lines with empty title and composer values — #TITLE "", #COMPOSER "",
#TIMEBASE 48 — followed by a single trailing newline (the "Untitled" /
"Unknown" defaults are dead because the parser always sets both fields); in
general the output is a whitespace-trimmed body followed by exactly one
trailing newline (the character before the final newline is never
whitespace), and an entirely empty body still yields a single newline. -/
theorem C7_amended_empty_doc_and_single_trailing_newline :
    convert_mml_file [] = "#TITLE \"\"\n#COMPOSER \"\"\n#TIMEBASE 48\n".toList
    ∧ ∀ content : List Char, ∃ body, convert_mml_file content = body ++ ['\n'] ∧
        ∀ c, body.getLast? = some c → isSpace c = false := by
  constructor
  · decide
  · intro content
    exact ⟨strip (joinNl (mmlParts (parse_mus_file content))), rfl,
      fun c hc => strip_getLast_not_space _ c hc⟩

/-- C7 amended witness: the trailing-newline decomposition at a concrete
document. -/
theorem C7_amended_witness :
    ∃ body, convert_mml_file "A c".toList = body ++ ['\n'] ∧
      ∀ c, body.getLast? = some c → isSpace c = false :=
  C7_amended_empty_doc_and_single_trailing_newline.2 "A c".toList
